import Mathlib

/-!
Verification of the tag validation + status transition engine of the iPad
tracking system (`src/dbService.ts`).

The TypeScript source is shallowly embedded: the Firestore document store and
the browser `localStorage` are modelled by an explicit `Store` value that is
threaded through the functions, asynchronous calls become plain function
calls, and thrown exceptions become `Except` values.  The two Thai status
strings `ส่งเข้า` ("checked in") and `ส่งออก` ("checked out") are kept as
string data where the source handles untyped store records, and as the
two-constructor type `Status` where the TypeScript union type
`'ส่งเข้า' | 'ส่งออก'` appears in a signature.
-/

namespace IpadTrack

/-! ### Model of JavaScript date printing and parsing

`dbService.ts` renders timestamps with `Date.prototype.toISOString` and reads
them back with `new Date(s).getTime()` (`NaN` for unparsable strings).  The
concrete ISO 8601 text format is irrelevant to the logic, so we model the
rendering of a millisecond count `t` as its decimal numeral, and parsing as
the inverse: a string parses (to `some t`) exactly when it is a non-empty
all-digit string; every other string is `NaN`, modelled as `none`. -/

/-- The character for a single decimal digit value. -/
def digChar (d : Nat) : Char :=
  if d = 0 then '0' else if d = 1 then '1' else if d = 2 then '2'
  else if d = 3 then '3' else if d = 4 then '4' else if d = 5 then '5'
  else if d = 6 then '6' else if d = 7 then '7' else if d = 8 then '8' else '9'

/-- The digit value of a character, `none` if it is not a decimal digit. -/
def charDigVal (c : Char) : Option Nat :=
  if c = '0' then some 0 else if c = '1' then some 1 else if c = '2' then some 2
  else if c = '3' then some 3 else if c = '4' then some 4 else if c = '5' then some 5
  else if c = '6' then some 6 else if c = '7' then some 7 else if c = '8' then some 8
  else if c = '9' then some 9 else none

/-- Little-endian digit characters of `n`, with explicit fuel so that the
definition is structural and reduces in the kernel. -/
def natNumAux : Nat → Nat → List Char
  | 0, _ => []
  | fuel + 1, n => if n = 0 then [] else digChar (n % 10) :: natNumAux fuel (n / 10)

/-- Model of `new Date(t).toISOString()`: the decimal numeral of `t`. -/
def dateToISOString (t : Nat) : String := if t = 0 then "0" else ⟨(natNumAux t t).reverse⟩

/-- Parse a list of characters as digit values (same order), `none` if any
character is not a digit. -/
def parseDigits : List Char → Option (List Nat)
  | [] => some []
  | c :: cs =>
    match charDigVal c, parseDigits cs with
    | some d, some ds => some (d :: ds)
    | _, _ => none

/-- Value of a little-endian digit list. -/
def valLE : List Nat → Nat
  | [] => 0
  | d :: ds => d + 10 * valLE ds

/-- Model of `new Date(s).getTime()`: `some t` when `s` is a decimal numeral
of `t`, `none` (JavaScript `NaN`) otherwise. -/
def dateGetTime (s : String) : Option Nat :=
  if s.data = [] then none
  else
    match parseDigits s.data with
    | some ds => some (valLE ds.reverse)
    | none => none

/-! ### Model of `Array.prototype.sort`

The source sorts with the comparator
`(a, b) => new Date(b.timestamp).getTime() - new Date(a.timestamp).getTime()`.
ECMAScript guarantees a stable sort; when the comparator returns `NaN` the
comparison is treated as `0` (a tie).  We model the comparator as an
`α → α → Option Int` (`none` = `NaN`) and the sort as a stable insertion
sort driven by the predicate "may stay before": `a` may stay before `b` when
the comparator yields a value `≤ 0`, or `NaN`. -/

/-- `a` may precede `b` under comparator `cmp`: result `≤ 0`, or `NaN`. -/
def jsLe (cmp : α → α → Option Int) (a b : α) : Bool :=
  match cmp a b with
  | some v => decide (v ≤ 0)
  | none => true

/-- Stable insertion of `x` (originally positioned before all of the list)
into an already sorted list. -/
def jsInsert (le : α → α → Bool) (x : α) : List α → List α
  | [] => [x]
  | y :: ys => if le x y then x :: y :: ys else y :: jsInsert le x ys

/-- Stable insertion sort; our model of `Array.prototype.sort(cmp)`. -/
def jsSortLe (le : α → α → Bool) : List α → List α
  | [] => []
  | x :: xs => jsInsert le x (jsSortLe le xs)

/-- `Array.prototype.sort` with a JavaScript comparator. -/
def jsSort (cmp : α → α → Option Int) (l : List α) : List α := jsSortLe (jsLe cmp) l

/-! ### Data model

The store behind `dbService.ts` is Firestore plus the browser
`localStorage`; both are modelled by a single explicit `Store` value.
Documents are untyped at runtime (TypeScript only casts them), so the raw
document types below carry `Option` fields where a field may be absent. -/

/-- The two values of the TypeScript union `'ส่งเข้า' | 'ส่งออก'`
(checked in / checked out). -/
inductive Status where
  | checkedIn
  | checkedOut
  deriving DecidableEq, Repr

/-- The string carried by a `Status` value. -/
def Status.str : Status → String
  | .checkedIn => "ส่งเข้า"
  | .checkedOut => "ส่งออก"

/-- Runtime value of the `timestamp` field of a stored log document: a
Firestore `Timestamp` (has `toDate`; carries a millisecond count), a plain
string, or a value of some other type. -/
inductive TSField where
  | fs (millis : Nat)
  | str (s : String)
  | other
  deriving DecidableEq, Repr

/-- A document of the `logs` collection as stored.  `id` is the
store-assigned document id.  The primary query orders by the `timestamp`
field, and Firestore omits documents lacking that field from such a query,
so every document modelled here has the field (`TSField.other` covers a
present value of a non-`Timestamp`, non-string type). -/
structure RawLog where
  id : String
  employeeId : Option String
  ipadTag : Option String
  department : Option String
  status : Option String
  timestamp : TSField
  date : Option String
  time : Option String
  deriving DecidableEq, Repr

/-- A document of the `ipad` (department registry) collection.  A missing or
non-array `tags` field is read as the empty array by every operation
(`Array.isArray` checks), so it is modelled as `[]`. -/
structure IpadDoc where
  id : String
  department : Option String
  tags : List String
  deriving DecidableEq, Repr

/-- A record of the `ipadLogs` array kept in `localStorage` (used only by
the second fallback of `getIpadStatus`).  The type guard there only checks
that the three keys are present. -/
structure LocalRaw where
  ipadTag : Option String
  status : Option String
  timestamp : Option String
  deriving DecidableEq, Repr

/-- The external stores and their failure modes.

`logs` is the `logs` collection in the order returned by the primary query
`orderBy('timestamp', 'desc')`; server-assigned creation timestamps are
monotonically increasing, so a newly appended document is returned first and
`addLog` prepends.  Each query shape can fail independently (connectivity,
missing composite index):
* `primaryLogsQueryFails` — the full-history `orderBy` query in `getLogs`;
* `tagLimitQueryFails` — the `where`+`orderBy`+`limit 1` query of fallback 1;
* `ipadTagQueryFails` — the `array-contains`+`department` query of
  `validateIpadTag`;
* `addDocFailMsg` — when `some m`, `addDoc` in `addLog` throws an `Error`
  with message `m`.
`localIpadLogs` is the parsed content of `localStorage.getItem('ipadLogs')`
(`none` when the key is absent). -/
structure Store where
  logs : List RawLog
  ipad : List IpadDoc
  localIpadLogs : Option (List LocalRaw)
  primaryLogsQueryFails : Bool
  tagLimitQueryFails : Bool
  ipadTagQueryFails : Bool
  addDocFailMsg : Option String
  deriving DecidableEq, Repr

/-- Remove the maximal whitespace suffix of a character list (the trailing
half of JavaScript `String.prototype.trim`). -/
def dropTrailingWs : List Char → List Char
  | [] => []
  | c :: cs =>
    if dropTrailingWs cs = [] ∧ c.isWhitespace then [] else c :: dropTrailingWs cs

/-- Character-list form of JavaScript `String.prototype.trim`: drop the
maximal leading and trailing whitespace. -/
def trimChars (l : List Char) : List Char := dropTrailingWs (l.dropWhile Char.isWhitespace)

/-- Model of JavaScript `String.prototype.trim`. -/
def jsTrim (s : String) : String := ⟨trimChars s.data⟩

/-- Collapse every maximal run of whitespace to a single `'_'`
(JavaScript `.replace(/\s+/g, '_')`); the flag records whether the previous
character was whitespace. -/
def collapseWsAux : Bool → List Char → List Char
  | _, [] => []
  | prevWs, c :: rest =>
    if c.isWhitespace then
      (if prevWs then [] else ['_']) ++ collapseWsAux true rest
    else c :: collapseWsAux false rest

/-- `deptIdFor`: the stable document id for a department display name —
`department.trim().toLowerCase().replace(/\s+/g, '_')`. -/
def deptIdFor (department : String) : String :=
  ⟨collapseWsAux false (jsTrim department).toLower.data⟩

/-- Model of `Date.prototype.toLocaleDateString('th-TH')` on a timestamp
string: locale rendering is opaque to the logic, modelled as a tagged copy
of the input. -/
def localeDateTH (ts : String) : String := "th-date:" ++ ts

/-- Model of `Date.prototype.toLocaleTimeString('th-TH')`, as above. -/
def localeTimeTH (ts : String) : String := "th-time:" ++ ts

/-- Model of `new Date().toLocaleDateString('en-US')` at time `now`. -/
def localeDateUS (now : Nat) : String := "us-date:" ++ dateToISOString now

/-- JavaScript `v || fallback` for an optional string field: the fallback is
used when the field is absent (`undefined`) or the empty string. -/
def jsOrString (v : Option String) (fallback : String) : String :=
  match v with
  | some s => if s = "" then fallback else s
  | none => fallback

/-- JavaScript `v || null` for an optional string. -/
def jsOrNull (v : Option String) : Option String :=
  match v with
  | some s => if s = "" then none else some s
  | none => none

/-- JavaScript falsiness of an optional string (`undefined`, `null` and
`''` are falsy). -/
def jsFalsy (v : Option String) : Bool := v == none || v == some ""

/-! ### Event store reading: `getLogs` and `getIpadStatus` -/

/-- The submitted fields of an event (TypeScript `LogBase`). -/
structure LogBase where
  employeeId : String
  ipadTag : String
  department : String
  status : Status
  deriving DecidableEq, Repr

/-- The record `getLogs` constructs for each retrieved document (TypeScript
`Log`).  The source casts store data, so `ipadTag`, `department` and
`status` may be absent at runtime despite the declared types. -/
structure Log where
  id : String
  employeeId : String
  ipadTag : Option String
  department : Option String
  status : Option String
  timestamp : String
  date : String
  time : String
  deriving DecidableEq, Repr

/-- The `isLog` type guard applied to a record built by `getLogs`.  Such a
record has every key present (`getLogs` assigns each one explicitly, and
JavaScript `'k' in obj` is true even for `undefined` values) and its `id` is
the store-assigned document id, always a string; the one live check is the
status enumeration from `isLocalLog`. -/
def isLog (l : Log) : Bool :=
  l.status == some Status.checkedIn.str || l.status == some Status.checkedOut.str

/-- The timestamp conversion in `getLogs`: a Firestore `Timestamp` is
rendered with `.toDate().toISOString()`, a string passes through, and any
other value becomes the current time rendered as ISO. -/
def convertTimestamp (now : Nat) : TSField → String
  | .fs t => dateToISOString t
  | .str s => s
  | .other => dateToISOString now

/-- The `Log` record `getLogs` builds from one document. -/
def buildLog (now : Nat) (raw : RawLog) : Log :=
  let timestamp := convertTimestamp now raw.timestamp
  { id := raw.id
    employeeId := jsOrString raw.employeeId ""
    ipadTag := raw.ipadTag
    department := raw.department
    status := raw.status
    timestamp := timestamp
    date := jsOrString raw.date (localeDateTH timestamp)
    time := jsOrString raw.time (localeTimeTH timestamp) }

/-- `getLogs`: run the descending-by-timestamp query over the `logs`
collection, convert each document, and keep those passing the `isLog`
guard.  Any store failure is caught and yields the empty list. -/
def getLogs (st : Store) (now : Nat) : List Log :=
  if st.primaryLogsQueryFails then []
  else (st.logs.map (buildLog now)).filter isLog

/-- The sort comparator of `getIpadStatus`:
`new Date(b.timestamp).getTime() - new Date(a.timestamp).getTime()`
(`none` = `NaN`, when either side is unparsable). -/
def logCmp (a b : Log) : Option Int :=
  match dateGetTime b.timestamp, dateGetTime a.timestamp with
  | some tb, some ta => some ((tb : Int) - ta)
  | _, _ => none

/-- The `try` block of `getIpadStatus`: filter the full history to the tag,
sort most-recent-first, and return the head's status (`?.status || null`).
`getLogs` catches its own store failures and every remaining step is pure,
so this block never throws; it is still wrapped in `Except` because the
source wraps it in `try`/`catch`. -/
def getIpadStatusPrimary (st : Store) (now : Nat) (ipadTag : String) :
    Except Unit (Option String) :=
  let ipadLogs := (getLogs st now).filter (fun l => l.ipadTag == some ipadTag)
  .ok (jsOrNull ((jsSort logCmp ipadLogs).head?.bind Log.status))

/-- Fallback 1 of `getIpadStatus`: the direct
`where('ipadTag','==',t)` + `orderBy('timestamp','desc')` + `limit(1)`
query.  `.error` models the query throwing; `.ok none` models an empty
result (the source then falls through to fallback 2); `.ok (some r)` models
`return data.status || null`. -/
def ipadStatusFallback1 (st : Store) (ipadTag : String) :
    Except Unit (Option (Option String)) :=
  if st.tagLimitQueryFails then .error ()
  else
    match (st.logs.filter (fun r => r.ipadTag == some ipadTag)).head? with
    | some doc => .ok (some (jsOrNull doc.status))
    | none => .ok none

/-- Comparator of the `localStorage` fallback, same shape as `logCmp`. -/
def localCmp (a b : LocalRaw) : Option Int :=
  match dateGetTime (b.timestamp.getD ""), dateGetTime (a.timestamp.getD "") with
  | some tb, some ta => some ((tb : Int) - ta)
  | _, _ => none

/-- Fallback 2 of `getIpadStatus`: read `ipadLogs` from `localStorage`,
keep records having the three required keys, filter by tag, sort
most-recent-first, and return the head's status. -/
def ipadStatusFallback2 (st : Store) (ipadTag : String) : Option String :=
  match st.localIpadLogs with
  | none => none
  | some logs =>
    let ipadLogs :=
      ((logs.filter fun l => l.ipadTag.isSome && l.status.isSome && l.timestamp.isSome).filter
        fun l => l.ipadTag == some ipadTag)
    jsOrNull ((jsSort localCmp ipadLogs).head?.bind LocalRaw.status)

/-- `getIpadStatus`: the primary block with its catch chain.  The chain is
structurally present but unreachable, because the primary block never
throws (see `getIpadStatusPrimary`). -/
def getIpadStatus (st : Store) (now : Nat) (ipadTag : String) : Option String :=
  match getIpadStatusPrimary st now ipadTag with
  | .ok r => r
  | .error _ =>
    match ipadStatusFallback1 st ipadTag with
    | .ok (some r) => r
    | _ => ipadStatusFallback2 st ipadTag

/-! ### Transition validation: `canAddLog` -/

/-- Result record of `canAddLog`. -/
structure CanAddResult where
  canAdd : Bool
  message : String
  deriving DecidableEq, Repr

/-- The duplicate-status rejection message of `canAddLog`. -/
def dupStatusMsg (newStatus : Status) : String :=
  "ไม่สามารถ" ++ newStatus.str ++ "ได้ เนื่องจากแท็กนี้อยู่ในสถานะ " ++ newStatus.str ++ " อยู่แล้ว"

/-- The residual inconsistent-status rejection message of `canAddLog`. -/
def inconsistentMsg (newStatus : Status) : String :=
  "ไม่สามารถ" ++ newStatus.str ++ "ได้ เนื่องจากสถานะปัจจุบันไม่สอดคล้อง"

/-- `canAddLog`: the transition validator.  No history (`!currentStatus`)
permits either status; a repeated status is rejected with the
duplicate-status message; the two opposite transitions are permitted; any
other current value falls to the residual rejection. -/
def canAddLog (st : Store) (now : Nat) (ipadTag : String) (newStatus : Status) :
    CanAddResult :=
  let currentStatus := getIpadStatus st now ipadTag
  if jsFalsy currentStatus then { canAdd := true, message := "" }
  else if currentStatus == some newStatus.str then
    { canAdd := false, message := dupStatusMsg newStatus }
  else if newStatus == Status.checkedOut && currentStatus == some Status.checkedIn.str then
    { canAdd := true, message := "" }
  else if newStatus == Status.checkedIn && currentStatus == some Status.checkedOut.str then
    { canAdd := true, message := "" }
  else { canAdd := false, message := inconsistentMsg newStatus }

/-! ### Tag validation and the log recorder -/

/-- `validateIpadTag`: the `array-contains(tags, ipadTag)` +
`department == department` query over the `ipad` collection; a nonempty
result means valid; any query failure is caught and yields `false`. -/
def validateIpadTag (st : Store) (ipadTag department : String) : Bool :=
  if st.ipadTagQueryFails then false
  else st.ipad.any fun d => d.tags.contains ipadTag && d.department == some department

/-- The tag-not-found error message of `addLog`. -/
def tagNotFoundMsg : String := "ไม่พบข้อมูลแท็กไอแพดหรือแผนกไม่ถูกต้อง"

/-- Message of the explicit repeated check-in re-check in `addLog`. -/
def dupCheckInMsg : String := "ไม่สามารถส่งเข้าได้ เนื่องจากแท็กนี้ยังไม่ได้ถูกส่งออก"

/-- Message of the explicit repeated check-out re-check in `addLog`. -/
def dupCheckOutMsg : String := "ไม่สามารถส่งออกได้ เนื่องจากแท็กนี้ยังไม่ถูกส่งเข้า"

/-- The explicit same-status re-check performed by `addLog` after
`canAddLog` already approved: `some m` means the re-check throws `m`. -/
def addLogRecheck (currentStatus : Option String) (status : Status) : Option String :=
  if currentStatus == some Status.checkedIn.str && status == Status.checkedIn then
    some dupCheckInMsg
  else if currentStatus == some Status.checkedOut.str && status == Status.checkedOut then
    some dupCheckOutMsg
  else none

/-- The document `addLog` writes (`addDoc` payload): the submitted fields
plus the server timestamp and locally formatted date/time.  The server
clock and the client clock are modelled as the same `now`. -/
def newLogDoc (log : LogBase) (now : Nat) (newId : String) : RawLog :=
  { id := newId
    employeeId := some log.employeeId
    ipadTag := some log.ipadTag
    department := some log.department
    status := some log.status.str
    timestamp := .fs now
    date := some (localeDateUS now)
    time := some (localeTimeTH (dateToISOString now)) }

/-- `addLog`: validate the tag, validate the transition, re-check the
duplicate status, then append.  The returned `Store` is the store after the
call; it is unchanged whenever an error is thrown.  Every thrown value is
an `Error`, so the final catch rethrows its message unchanged. -/
def addLog (st : Store) (now : Nat) (newId : String) (log : LogBase) :
    Except String Log × Store :=
  if !validateIpadTag st log.ipadTag log.department then
    (.error tagNotFoundMsg, st)
  else
    let res := canAddLog st now log.ipadTag log.status
    if !res.canAdd then (.error res.message, st)
    else
      let currentStatus := getIpadStatus st now log.ipadTag
      match addLogRecheck currentStatus log.status with
      | some m => (.error m, st)
      | none =>
        match st.addDocFailMsg with
        | some m => (.error m, st)
        | none =>
          (.ok { id := newId
                 employeeId := log.employeeId
                 ipadTag := some log.ipadTag
                 department := some log.department
                 status := some log.status.str
                 timestamp := dateToISOString now
                 date := localeDateUS now
                 time := localeTimeTH (dateToISOString now) },
           { st with logs := newLogDoc log now newId :: st.logs })

/-! ### Department registry operations -/

/-- `Array.from(new Set(l))`: deduplication keeping first occurrences, with
an accumulator of the values already seen. -/
def jsSetDedupAux (seen : List String) : List String → List String
  | [] => []
  | x :: xs =>
    if seen.contains x then jsSetDedupAux seen xs
    else x :: jsSetDedupAux (x :: seen) xs

/-- `Array.from(new Set(l))`. -/
def jsSetDedup (l : List String) : List String := jsSetDedupAux [] l

/-- `getDoc` on `ipad/<id>`. -/
def getIpadDocById (st : Store) (id : String) : Option IpadDoc :=
  st.ipad.find? fun d => d.id == id

/-- Replace the document with the given id by a new value (used to model
`updateDoc`/`setDoc` on an existing document). -/
def replaceIpadDoc (st : Store) (id : String) (newDoc : IpadDoc) : Store :=
  { st with ipad := st.ipad.map fun d => if d.id == id then newDoc else d }

/-- `setDoc` on `ipad/<id>`: overwrite when present, create otherwise. -/
def setIpadDoc (st : Store) (id department : String) (tags : List String) : Store :=
  if st.ipad.any (fun d => d.id == id) then
    replaceIpadDoc st id ⟨id, some department, tags⟩
  else { st with ipad := st.ipad ++ [⟨id, some department, tags⟩] }

/-- `deleteDoc` on `ipad/<id>`. -/
def deleteIpadDoc (st : Store) (id : String) : Store :=
  { st with ipad := st.ipad.filter fun d => !(d.id == id) }

/-- `upsertIpadDepartment`: create or update a department document, merging
normalized tags into the existing ones. -/
def upsertIpadDepartment (st : Store) (department : String) (tags : List String) :
    Except String Store :=
  if jsTrim department = "" then .error "department required"
  else
    let id := deptIdFor department
    let normalizedTags := jsSetDedup ((tags.map jsTrim).filter fun t => t ≠ "")
    match getIpadDocById st id with
    | some data =>
      let merged := jsSetDedup (data.tags ++ normalizedTags)
      .ok (replaceIpadDoc st id ⟨id, some department, merged⟩)
    | none => .ok (setIpadDoc st id department normalizedTags)

/-- `removeTagFromDepartment`: drop the exact tag from the department's
document; a missing document is a no-op. -/
def removeTagFromDepartment (st : Store) (department tag : String) : Store :=
  let id := deptIdFor department
  match getIpadDocById st id with
  | none => st
  | some data =>
    replaceIpadDoc st id { data with id := id, tags := data.tags.filter fun t => !(t == tag) }

/-- `addTagToDepartment`: append the trimmed tag when not already present
(creating the document when missing); a blank tag is a no-op. -/
def addTagToDepartment (st : Store) (department tag : String) : Store :=
  if jsTrim tag = "" then st
  else
    let id := deptIdFor department
    let t := jsTrim tag
    match getIpadDocById st id with
    | some data =>
      if data.tags.contains t then st
      else replaceIpadDoc st id ⟨id, some department, data.tags ++ [t]⟩
    | none => setIpadDoc st id department [t]

/-- `renameIpadDepartment`: when the normalized keys coincide, update the
display name only (`updateDoc` throws when the document is missing —
modelled by the error case); otherwise merge the two documents' tag sets
(new first, trimmed, non-empty, deduplicated) into the target key and
delete the source document. -/
def renameIpadDepartment (st : Store) (oldName newName : String) :
    Except String Store :=
  if oldName = "" ∨ newName = "" then .error "old and new department required"
  else
    let oldId := deptIdFor oldName
    let newId := deptIdFor newName
    if oldId = newId then
      match getIpadDocById st oldId with
      | none => .error "no document to update"
      | some data => .ok (replaceIpadDoc st oldId { data with department := some newName })
    else
      let oldSnap := getIpadDocById st oldId
      let newSnap := getIpadDocById st newId
      let oldTags := (oldSnap.map IpadDoc.tags).getD []
      let newTags := (newSnap.map IpadDoc.tags).getD []
      let merged := jsSetDedup (((newTags ++ oldTags).map jsTrim).filter fun t => t ≠ "")
      let st1 :=
        match newSnap with
        | some _ => replaceIpadDoc st newId ⟨newId, some newName, merged⟩
        | none => setIpadDoc st newId newName merged
      let st2 :=
        match oldSnap with
        | some _ => deleteIpadDoc st1 oldId
        | none => st1
      .ok st2

/-- Model of the `'th'` locale string comparison used by
`getTagsByDepartment`: an external total collation, modelled by the
lexicographic order on strings. -/
def thLe (a b : String) : Bool := decide (a ≤ b)

/-- `getTagsByDepartment`: collect the trimmed non-empty tags of every
document whose `department` field equals the given name into a set, and
return them sorted by the locale comparison. -/
def getTagsByDepartment (st : Store) (department : String) : List String :=
  let docs := st.ipad.filter fun d => d.department == some department
  let tagSet :=
    jsSetDedup (((docs.map IpadDoc.tags).flatten.map jsTrim).filter fun t => t ≠ "")
  jsSortLe thLe tagSet

/-! ### The alternation law -/

/-- A run of accepted submissions for a single tag: each step carries the
submission time, the assigned document id and the requested status; the
transition validator must approve every step, and each accepted step
appends the document `addLog` writes on success. -/
def acceptedRun (tag emp dept : String) : Store → List (Nat × String × Status) → Bool
  | _, [] => true
  | st, (now, newId, s) :: rest =>
    (canAddLog st now tag s).canAdd &&
      acceptedRun tag emp dept
        { st with logs := newLogDoc ⟨emp, tag, dept, s⟩ now newId :: st.logs } rest

/-! ### Malformed timestamps (C6) -/

/-- A store whose only event for tag `T` has an unparsable string
timestamp. -/
def storeMalformedTs : Store :=
  { logs := [{ id := "b1", employeeId := some "e1", ipadTag := some "T",
               department := some "ER", status := some "ส่งเข้า",
               timestamp := .str "garbage", date := none, time := none }]
    ipad := []
    localIpadLogs := none
    primaryLogsQueryFails := false
    tagLimitQueryFails := false
    ipadTagQueryFails := false
    addDocFailMsg := none }

/-! ### The fallback chain (C7) -/

/-- A store whose primary query fails while the direct limit-1 query for
tag `T` would succeed with a result. -/
def storePrimaryDown : Store :=
  { logs := [{ id := "d1", employeeId := some "e1", ipadTag := some "T",
               department := some "ER", status := some "ส่งเข้า",
               timestamp := .fs 1, date := some "d", time := some "t" }]
    ipad := []
    localIpadLogs := none
    primaryLogsQueryFails := true
    tagLimitQueryFails := false
    ipadTagQueryFails := false
    addDocFailMsg := none }

/-! ### The registry invariant (C9) -/

/-- The tag-set invariant of a registry document: every tag is trimmed and
non-empty, and there are no duplicates. -/
def TagsInv (tags : List String) : Prop :=
  (∀ t ∈ tags, jsTrim t = t ∧ t ≠ "") ∧ tags.Nodup

/-- The registry invariant over the whole store. -/
def RegistryInv (st : Store) : Prop := ∀ d ∈ st.ipad, TagsInv d.tags

/-! ### A concrete sample store -/

/-- A registry with department `ER` owning two tags and an empty event
history. -/
def sampleRegistry : Store :=
  { logs := []
    ipad := [⟨"er", some "ER", ["ER-01", "ER-02"]⟩]
    localIpadLogs := none
    primaryLogsQueryFails := false
    tagLimitQueryFails := false
    ipadTagQueryFails := false
    addDocFailMsg := none }

/-- The sample registry after one accepted check-in of `ER-01`. -/
def sampleHistory : Store :=
  { logs := [{ id := "L1", employeeId := some "E100", ipadTag := some "ER-01",
               department := some "ER", status := some "ส่งเข้า",
               timestamp := .fs 3, date := some "d", time := some "t" }]
    ipad := [⟨"er", some "ER", ["ER-01", "ER-02"]⟩]
    localIpadLogs := none
    primaryLogsQueryFails := false
    tagLimitQueryFails := false
    ipadTagQueryFails := false
    addDocFailMsg := none }

/-! ### Proof development -/

theorem charDigVal_digChar {d : Nat} (h : d < 10) : charDigVal (digChar d) = some d := by
  interval_cases d <;> decide

theorem parseDigits_map_digChar (l : List Nat) (h : ∀ d ∈ l, d < 10) :
    parseDigits (l.map digChar) = some l := by
  induction l with
  | nil => rfl
  | cons d ds ih =>
    simp only [List.map_cons, parseDigits]
    rw [charDigVal_digChar (h d (by simp)), ih (fun x hx => h x (by simp [hx]))]

theorem natNumAux_digits {fuel n : Nat} (h : n ≤ fuel) :
    ∃ l : List Nat, natNumAux fuel n = l.map digChar ∧ (∀ d ∈ l, d < 10) ∧
      valLE l = n ∧ (n ≠ 0 → l ≠ []) := by
  induction fuel generalizing n with
  | zero =>
    refine ⟨[], rfl, by simp, ?_, by omega⟩
    simp [valLE]; omega
  | succ fuel ih =>
    by_cases hn : n = 0
    · exact ⟨[], by simp [natNumAux, hn], by simp, by simp [valLE, hn], by simp [hn]⟩
    · have hdiv : n / 10 < n := Nat.div_lt_self (Nat.pos_of_ne_zero hn) (by omega)
      obtain ⟨l, hl1, hl2, hl3, _⟩ := ih (n := n / 10) (by omega)
      refine ⟨n % 10 :: l, ?_, ?_, ?_, fun _ => by simp⟩
      · simp [natNumAux, hn, hl1]
      · intro d hd
        rcases List.mem_cons.mp hd with hd | hd
        · omega
        · exact hl2 _ hd
      · simp [valLE, hl3]; omega

/-- Printed timestamps parse back to themselves: the model of
`new Date(new Date(t).toISOString()).getTime()` is `t`. -/
theorem dateGetTime_toISOString (t : Nat) : dateGetTime (dateToISOString t) = some t := by
  by_cases ht : t = 0
  · subst ht; decide
  · obtain ⟨l, hl1, hl2, hl3, hl4⟩ := @natNumAux_digits t t le_rfl
    have hdata : (dateToISOString t).data = (l.map digChar).reverse := by
      simp [dateToISOString, ht, hl1]
    have hne : (dateToISOString t).data ≠ [] := by
      simp only [hdata]
      simpa using fun h => hl4 ht h
    rw [dateGetTime, if_neg hne, hdata, ← List.map_reverse,
      parseDigits_map_digChar _ (fun d hd => hl2 d (List.mem_reverse.mp hd))]
    simp [hl3]

theorem mem_jsInsert {le : α → α → Bool} {x a : α} {l : List α} :
    a ∈ jsInsert le x l ↔ a = x ∨ a ∈ l := by
  induction l with
  | nil => simp [jsInsert]
  | cons y ys ih =>
    by_cases h : le x y <;> simp [jsInsert, h, ih] <;> tauto

theorem mem_jsSortLe {le : α → α → Bool} {a : α} {l : List α} :
    a ∈ jsSortLe le l ↔ a ∈ l := by
  induction l with
  | nil => simp [jsSortLe]
  | cons y ys ih => simp [jsSortLe, mem_jsInsert, ih]

/-- A strictly maximal element comes out first in the stable sort. -/
theorem head_jsSortLe_of_max {le : α → α → Bool} {x : α} {l : List α}
    (hmem : x ∈ l) (hx : ∀ y ∈ l, le x y = true)
    (hy : ∀ y ∈ l, y ≠ x → le y x = false) :
    (jsSortLe le l).head? = some x := by
  induction l with
  | nil => cases hmem
  | cons z zs ih =>
    by_cases hzx : x ∈ zs
    · have ihz : (jsSortLe le zs).head? = some x :=
        ih hzx (fun y hy' => hx y (List.mem_cons_of_mem _ hy'))
          (fun y hy' h => hy y (List.mem_cons_of_mem _ hy') h)
      cases hsort : jsSortLe le zs with
      | nil => rw [hsort] at ihz; cases ihz
      | cons w ws =>
        rw [hsort] at ihz
        have hwx : w = x := by simpa using ihz
        by_cases hz : z = x
        · simp only [jsSortLe, hsort, jsInsert, hwx, hz]
          by_cases hb : le x x = true
          · rw [if_pos hb]; rfl
          · rw [if_neg hb]; rfl
        · have hzf : le z x = false := hy z (List.mem_cons_self _ _) hz
          simp only [jsSortLe, hsort, jsInsert, hwx]
          rw [if_neg (by simp [hzf])]
          rfl
    · have hzz : z = x := by
        rcases List.mem_cons.mp hmem with h | h
        · exact h.symm
        · exact absurd h hzx
      cases hsort : jsSortLe le zs with
      | nil => simp only [jsSortLe, hsort]; simp [jsInsert, hzz]
      | cons w ws =>
        have hwz : w ∈ zs := mem_jsSortLe.mp (hsort.symm ▸ List.mem_cons_self w ws)
        have hle : le x w = true := hx w (List.mem_cons_of_mem _ hwz)
        simp only [jsSortLe, hsort]
        simp [jsInsert, hle, hzz]

/-- When every pairwise comparison is a tie, the stable sort keeps the list
exactly as it was. -/
theorem jsSortLe_of_all_ties {le : α → α → Bool} {l : List α}
    (h : ∀ a ∈ l, ∀ b ∈ l, le a b = true) : jsSortLe le l = l := by
  induction l with
  | nil => rfl
  | cons z zs ih =>
    have ihz : jsSortLe le zs = zs := ih (fun a ha b hb => h a (by simp [ha]) b (by simp [hb]))
    simp only [jsSortLe, ihz]
    cases zs with
    | nil => rfl
    | cons w ws =>
      simp [jsInsert, h z (List.mem_cons_self _ _) w (List.mem_cons_of_mem _ (List.mem_cons_self _ _))]

/-! ### Basic lemmas about the embedded operations -/

theorem mem_getLogs {st : Store} {now : Nat} {l : Log} :
    l ∈ getLogs st now ↔
      st.primaryLogsQueryFails = false ∧ isLog l = true ∧
        ∃ r ∈ st.logs, buildLog now r = l := by
  unfold getLogs
  cases h : st.primaryLogsQueryFails
  · rw [if_neg (by simp : ¬(false = true))]
    simp only [List.mem_filter, List.mem_map]
    constructor
    · rintro ⟨⟨r, hr, hbl⟩, hguard⟩
      exact ⟨by trivial, hguard, r, hr, hbl⟩
    · rintro ⟨-, hguard, r, hr, hbl⟩
      exact ⟨⟨r, hr, hbl⟩, hguard⟩
  · rw [if_pos rfl]
    simp

theorem status_of_isLog {l : Log} (h : isLog l = true) :
    l.status = some Status.checkedIn.str ∨ l.status = some Status.checkedOut.str := by
  simpa only [isLog, Bool.or_eq_true, beq_iff_eq] using h

theorem jsOrNull_status {l : Log} (h : isLog l = true) : jsOrNull l.status = l.status := by
  rcases status_of_isLog h with h' | h' <;> rw [h'] <;> rfl

/-- `getIpadStatus` always computes along the primary path: the catch chain
is unreachable. -/
theorem getIpadStatus_eq (st : Store) (now : Nat) (tag : String) :
    getIpadStatus st now tag =
      jsOrNull ((jsSort logCmp ((getLogs st now).filter
        fun l => l.ipadTag == some tag)).head?.bind Log.status) := rfl

/-- `getIpadStatus` only ever produces `null` or one of the two enumerated
statuses. -/
theorem getIpadStatus_enum (st : Store) (now : Nat) (tag : String) :
    getIpadStatus st now tag = none ∨
    getIpadStatus st now tag = some Status.checkedIn.str ∨
    getIpadStatus st now tag = some Status.checkedOut.str := by
  rw [getIpadStatus_eq]
  cases hs : jsSort logCmp ((getLogs st now).filter fun l => l.ipadTag == some tag) with
  | nil => left; rfl
  | cons a as =>
    have ha : a ∈ getLogs st now := by
      have : a ∈ jsSort logCmp ((getLogs st now).filter fun l => l.ipadTag == some tag) :=
        hs.symm ▸ List.mem_cons_self a as
      exact List.mem_of_mem_filter (mem_jsSortLe.mp this)
    rcases status_of_isLog (mem_getLogs.mp ha).2.1 with h' | h'
    · right; left; simp [h']; rfl
    · right; right; simp [h']; rfl

/-- When the current status equals the requested one, `canAddLog` rejects
with the duplicate-status message. -/
theorem canAddLog_of_same {st : Store} {now : Nat} {tag : String} {s : Status}
    (h : getIpadStatus st now tag = some s.str) :
    canAddLog st now tag s = { canAdd := false, message := dupStatusMsg s } := by
  unfold canAddLog
  rw [h]
  cases s <;> decide

/-- Whenever `canAddLog` approves, the explicit same-status re-check of
`addLog` does not reject. -/
theorem addLogRecheck_none_of_canAdd {st : Store} {now : Nat} {tag : String} {s : Status}
    (h : (canAddLog st now tag s).canAdd = true) :
    addLogRecheck (getIpadStatus st now tag) s = none := by
  rcases getIpadStatus_enum st now tag with h0 | h0 | h0
  · rw [addLogRecheck, h0]; cases s <;> decide
  · cases s
    · rw [canAddLog_of_same h0] at h; cases h
    · rw [addLogRecheck, h0]; decide
  · cases s
    · rw [addLogRecheck, h0]; decide
    · rw [canAddLog_of_same h0] at h; cases h

/-- C4: `validateIpadTag` returns `true` exactly when some registry document
carries the claimed department and contains the tag (exact string
membership), and returns `false` — never an exception — when the registry
query fails. -/
theorem validateIpadTag_spec (st : Store) (tag dept : String) :
    (validateIpadTag st tag dept = true ↔
      st.ipadTagQueryFails = false ∧
        ∃ d ∈ st.ipad, tag ∈ d.tags ∧ d.department = some dept) ∧
    (st.ipadTagQueryFails = true → validateIpadTag st tag dept = false) := by
  constructor
  · unfold validateIpadTag
    by_cases h : st.ipadTagQueryFails
    · simp [h]
    · simp [h, List.any_eq_true, Bool.and_eq_true, beq_iff_eq, List.contains_iff_exists_mem_beq]
  · intro h
    simp [validateIpadTag, h]

/-- C5: the two duplicate-status checks of `addLog` agree over a fixed
store: approval by `canAddLog` implies the explicit re-check passes, and a
re-check rejection implies `canAddLog` already rejected. -/
theorem addLog_recheck_agrees (st : Store) (now : Nat) (tag : String) (s : Status) :
    ((canAddLog st now tag s).canAdd = true →
      addLogRecheck (getIpadStatus st now tag) s = none) ∧
    (addLogRecheck (getIpadStatus st now tag) s ≠ none →
      (canAddLog st now tag s).canAdd = false) := by
  refine ⟨addLogRecheck_none_of_canAdd, fun h => ?_⟩
  cases hx : (canAddLog st now tag s).canAdd
  · rfl
  · exact absurd (addLogRecheck_none_of_canAdd hx) h

/-- C10: records failing the `isLog` type guard are dropped by `getLogs`
(in particular any record whose status is not one of the two enumerated
values), every returned record satisfies the status enumeration, and
`getIpadStatus` can only yield one of the two statuses or `null`. -/
theorem getLogs_schema (st : Store) (now : Nat) (tag : String) :
    (∀ r ∈ st.logs, isLog (buildLog now r) = false → buildLog now r ∉ getLogs st now) ∧
    (∀ l ∈ getLogs st now,
      l.status = some Status.checkedIn.str ∨ l.status = some Status.checkedOut.str) ∧
    (getIpadStatus st now tag = none ∨
      getIpadStatus st now tag = some Status.checkedIn.str ∨
      getIpadStatus st now tag = some Status.checkedOut.str) := by
  refine ⟨fun r _ hbad hmem => ?_, fun l hl => status_of_isLog (mem_getLogs.mp hl).2.1,
    getIpadStatus_enum st now tag⟩
  rw [(mem_getLogs.mp hmem).2.1] at hbad
  cases hbad

/-- When `e` is the strictly most recent (by parsed timestamp) event for
the tag, status resolution returns `e`'s status. -/
theorem getIpadStatus_of_max {st : Store} {now : Nat} {tag : String} {e : Log} {te : Nat}
    (he : e ∈ (getLogs st now).filter fun l => l.ipadTag == some tag)
    (hte : dateGetTime e.timestamp = some te)
    (hmax : ∀ e' ∈ (getLogs st now).filter (fun l => l.ipadTag == some tag),
      e' ≠ e → ∃ t', dateGetTime e'.timestamp = some t' ∧ t' < te) :
    getIpadStatus st now tag = e.status := by
  rw [getIpadStatus_eq]
  have hhead :
      (jsSort logCmp ((getLogs st now).filter fun l => l.ipadTag == some tag)).head? =
        some e := by
    unfold jsSort
    apply head_jsSortLe_of_max he
    · intro y hy
      by_cases hye : y = e
      · subst hye
        simp [jsLe, logCmp, hte]
      · obtain ⟨t', ht', hlt⟩ := hmax y hy hye
        simp only [jsLe, logCmp, hte, ht']
        rw [decide_eq_true_eq]
        omega
    · intro y hy hye
      obtain ⟨t', ht', hlt⟩ := hmax y hy hye
      simp only [jsLe, logCmp, hte, ht']
      rw [decide_eq_false_iff_not]
      omega
  rw [hhead]
  exact jsOrNull_status (mem_getLogs.mp (List.mem_of_mem_filter he)).2.1

/-- C2: `getIpadStatus` returns `null` when the store holds no event for
the tag, and otherwise the status of the most recent event for the tag
(most recent by parsed timestamp, i.e. the head after the descending
sort). -/
theorem getIpadStatus_resolution (st : Store) (now : Nat) (tag : String) :
    ((∀ r ∈ st.logs, r.ipadTag ≠ some tag) → getIpadStatus st now tag = none) ∧
    (∀ e ∈ (getLogs st now).filter (fun l => l.ipadTag == some tag), ∀ te : Nat,
      dateGetTime e.timestamp = some te →
      (∀ e' ∈ (getLogs st now).filter (fun l => l.ipadTag == some tag),
        e' ≠ e → ∃ t', dateGetTime e'.timestamp = some t' ∧ t' < te) →
      getIpadStatus st now tag = e.status) := by
  constructor
  · intro hnone
    rw [getIpadStatus_eq]
    have hnil : (getLogs st now).filter (fun l => l.ipadTag == some tag) = [] := by
      rw [List.filter_eq_nil_iff]
      intro l hl
      obtain ⟨-, -, r, hr, hbl⟩ := mem_getLogs.mp hl
      have htag : l.ipadTag = r.ipadTag := by rw [← hbl]; rfl
      simp [htag, hnone r hr]
    rw [hnil]
    rfl
  · intro e he te hte hmax
    exact getIpadStatus_of_max he hte hmax

/-- After appending the document `addLog` writes, at a time strictly later
than every other stored event of the tag, the resolved status is the
appended status. -/
theorem getIpadStatus_prepend {st : Store} {tag emp dept newId : String} {s : Status}
    {wtime now : Nat}
    (hfail : st.primaryLogsQueryFails = false)
    (hold : ∀ r ∈ st.logs, r.ipadTag = some tag →
      ∃ t, r.timestamp = TSField.fs t ∧ t < wtime) :
    getIpadStatus { st with logs := newLogDoc ⟨emp, tag, dept, s⟩ wtime newId :: st.logs }
      now tag = some s.str := by
  set st' := { st with logs := newLogDoc ⟨emp, tag, dept, s⟩ wtime newId :: st.logs }
    with hst'
  set e := buildLog now (newLogDoc ⟨emp, tag, dept, s⟩ wtime newId) with hee
  have hstatus : e.status = some s.str := rfl
  have hisLog : isLog e = true := by
    rw [isLog, hstatus]
    cases s <;> rfl
  have hmem : e ∈ getLogs st' now := by
    rw [mem_getLogs]
    exact ⟨hfail, hisLog, _, List.mem_cons_self _ _, rfl⟩
  have hfil : e ∈ (getLogs st' now).filter fun l => l.ipadTag == some tag := by
    rw [List.mem_filter]
    refine ⟨hmem, ?_⟩
    show ((some tag : Option String) == some tag) = true
    simp
  have hts : dateGetTime e.timestamp = some wtime := by
    show dateGetTime (dateToISOString wtime) = some wtime
    exact dateGetTime_toISOString wtime
  have hres := getIpadStatus_of_max hfil hts ?hmax
  · rw [hres, hstatus]
  case hmax =>
    intro e' he' hne
    have he'log := List.mem_of_mem_filter he'
    obtain ⟨-, -, r', hr', hbl⟩ := mem_getLogs.mp he'log
    rcases List.mem_cons.mp hr' with hcase | hcase
    · exfalso
      apply hne
      rw [← hbl, hcase]
    · have htag' : r'.ipadTag = some tag := by
        have h1 : e'.ipadTag = r'.ipadTag := by rw [← hbl]; rfl
        have h2 : (e'.ipadTag == some tag) = true := (List.mem_filter.mp he').2
        rw [h1] at h2
        exact eq_of_beq h2
      obtain ⟨t, ht, hlt⟩ := hold r' hcase htag'
      refine ⟨t, ?_, hlt⟩
      rw [← hbl]
      show dateGetTime (convertTimestamp now r'.timestamp) = some t
      rw [ht]
      exact dateGetTime_toISOString t

/-- Every accepted run over a store with suitably older events for the tag
yields a strictly alternating status sequence. -/
theorem acceptedRun_chain (tag emp dept : String) (run : List (Nat × String × Status)) :
    ∀ st : Store,
      st.primaryLogsQueryFails = false →
      run.Pairwise (fun a b => a.1 < b.1) →
      (∀ r ∈ st.logs, r.ipadTag = some tag →
        ∃ t, r.timestamp = TSField.fs t ∧ ∀ step ∈ run, t < step.1) →
      acceptedRun tag emp dept st run = true →
      (run.map fun x => x.2.2).Chain' (· ≠ ·) := by
  induction run with
  | nil =>
    intro st _ _ _ _
    simp
  | cons step rest ih =>
    obtain ⟨now, newId, s⟩ := step
    intro st hfail hpair hold haccept
    rw [acceptedRun, Bool.and_eq_true] at haccept
    obtain ⟨hcan, hrest⟩ := haccept
    have hpairRest : rest.Pairwise (fun a b => a.1 < b.1) :=
      (List.pairwise_cons.mp hpair).2
    have hnowlt : ∀ b ∈ rest, now < b.1 := (List.pairwise_cons.mp hpair).1
    have hold' : ∀ r ∈ newLogDoc ⟨emp, tag, dept, s⟩ now newId :: st.logs,
        r.ipadTag = some tag →
        ∃ t, r.timestamp = TSField.fs t ∧ ∀ b ∈ rest, t < b.1 := by
      intro r hr htag
      rcases List.mem_cons.mp hr with h | h
      · rw [h]
        exact ⟨now, rfl, hnowlt⟩
      · obtain ⟨t, ht, hlt⟩ := hold r h htag
        exact ⟨t, ht, fun b hb => hlt b (List.mem_cons_of_mem _ hb)⟩
    have hchain :=
      ih { st with logs := newLogDoc ⟨emp, tag, dept, s⟩ now newId :: st.logs }
        hfail hpairRest hold' hrest
    rw [List.map_cons]
    rw [List.chain'_cons']
    refine ⟨?_, hchain⟩
    intro y hy
    cases rest with
    | nil => simp at hy
    | cons step2 rest2 =>
      obtain ⟨n2, id2, s2⟩ := step2
      have hys : s2 = y := by simpa using hy
      rw [← hys]
      rw [acceptedRun, Bool.and_eq_true] at hrest
      have hcan2 := hrest.1
      have hstat : getIpadStatus
          { st with logs := newLogDoc ⟨emp, tag, dept, s⟩ now newId :: st.logs }
          n2 tag = some s.str :=
        getIpadStatus_prepend hfail (fun r hr htag => by
          obtain ⟨t, ht, hlt⟩ := hold r hr htag
          exact ⟨t, ht, hlt (now, newId, s) (List.mem_cons_self _ _)⟩)
      intro heq
      rw [← heq] at hcan2
      rw [canAddLog_of_same hstat] at hcan2
      cases hcan2

/-- C1: `canAddLog` implements the two-status state machine.  For every
store: a request is approved exactly when there is no current status or
the current status differs from the requested one, and a repeated status
is rejected with the duplicate-status message.  Consequently every
accepted run of submissions for a tag with empty history (at strictly
increasing server times, with the store readable) strictly alternates
between the two statuses, starting from either. -/
theorem canAddLog_state_machine (st : Store) (now : Nat) (tag : String) (s : Status) :
    ((canAddLog st now tag s).canAdd = true ↔
      (getIpadStatus st now tag = none ∨ getIpadStatus st now tag ≠ some s.str)) ∧
    (getIpadStatus st now tag = some s.str →
      canAddLog st now tag s = { canAdd := false, message := dupStatusMsg s }) ∧
    (∀ (emp dept : String) (run : List (Nat × String × Status)),
      st.primaryLogsQueryFails = false →
      (∀ r ∈ st.logs, r.ipadTag ≠ some tag) →
      run.Pairwise (fun a b => a.1 < b.1) →
      acceptedRun tag emp dept st run = true →
      (run.map fun x => x.2.2).Chain' (· ≠ ·)) := by
  refine ⟨?_, fun h => canAddLog_of_same h,
    fun emp dept run hfail hempty hinc hacc =>
      acceptedRun_chain tag emp dept run st hfail hinc
        (fun r hr htag => absurd htag (hempty r hr)) hacc⟩
  rcases getIpadStatus_enum st now tag with h0 | h0 | h0 <;>
    (unfold canAddLog; rw [h0]; cases s) <;> decide

/-- C3: `addLog` appends at most one event per call: each rejection throws
the specific message (tag-not-found vs. the transition message) with the
store left unchanged; the append happens only after all validations pass;
and a failed append records no event and propagates the error message. -/
theorem addLog_spec (st : Store) (now : Nat) (newId : String) (log : LogBase) :
    (validateIpadTag st log.ipadTag log.department = false →
      addLog st now newId log = (.error tagNotFoundMsg, st)) ∧
    (validateIpadTag st log.ipadTag log.department = true →
      (canAddLog st now log.ipadTag log.status).canAdd = false →
      addLog st now newId log =
        (.error (canAddLog st now log.ipadTag log.status).message, st)) ∧
    (∀ m, validateIpadTag st log.ipadTag log.department = true →
      (canAddLog st now log.ipadTag log.status).canAdd = true →
      st.addDocFailMsg = some m →
      addLog st now newId log = (.error m, st)) ∧
    (validateIpadTag st log.ipadTag log.department = true →
      (canAddLog st now log.ipadTag log.status).canAdd = true →
      st.addDocFailMsg = none →
      ∃ ret, addLog st now newId log =
        (.ok ret, { st with logs := newLogDoc log now newId :: st.logs })) := by
  refine ⟨fun hv => ?_, fun hv hc => ?_, fun m hv hc hm => ?_, fun hv hc hm => ?_⟩
  · simp [addLog, hv]
  · simp [addLog, hv, hc]
  · have hre := addLogRecheck_none_of_canAdd hc
    simp [addLog, hv, hc, hre, hm]
  · have hre := addLogRecheck_none_of_canAdd hc
    refine ⟨{ id := newId, employeeId := log.employeeId, ipadTag := some log.ipadTag,
              department := some log.department, status := some log.status.str,
              timestamp := dateToISOString now, date := localeDateUS now,
              time := localeTimeTH (dateToISOString now) }, ?_⟩
    simp [addLog, hv, hc, hre, hm]

/-- C6 counterexample: the sole event's timestamp does not parse, yet
`getIpadStatus` returns that event's status instead of skipping it or
treating the state as unresolvable (which would give `none`). -/
theorem malformed_ts_counterexample :
    dateGetTime "garbage" = none ∧
    getIpadStatus storeMalformedTs 5 "T" = some Status.checkedIn.str := by
  exact ⟨by decide, by decide⟩

/-- C6 amended: resolution of malformed timestamps never throws (every
function here is total), but such events are not skipped: an event whose
timestamp fails to parse ties with everything in the comparator, the
stable sort leaves the candidate order unchanged, and when every event of
the tag has an unparsable timestamp, the first one in query order decides
the status. -/
theorem malformed_ts_amended (st : Store) (now : Nat) (tag : String) (e : Log)
    (hall : ∀ l ∈ (getLogs st now).filter (fun l => l.ipadTag == some tag),
      dateGetTime l.timestamp = none)
    (hhead : ((getLogs st now).filter (fun l => l.ipadTag == some tag)).head? = some e) :
    getIpadStatus st now tag = e.status := by
  rw [getIpadStatus_eq]
  have hsort : jsSort logCmp ((getLogs st now).filter fun l => l.ipadTag == some tag) =
      (getLogs st now).filter fun l => l.ipadTag == some tag := by
    apply jsSortLe_of_all_ties
    intro a ha b hb
    simp [jsLe, logCmp, hall a ha, hall b hb]
  rw [hsort, hhead]
  cases hfil : (getLogs st now).filter (fun l => l.ipadTag == some tag) with
  | nil => rw [hfil] at hhead; cases hhead
  | cons a as =>
    rw [hfil] at hhead
    have hae : a = e := by simpa using hhead
    have hmem : e ∈ getLogs st now := by
      apply List.mem_of_mem_filter (p := fun l => l.ipadTag == some tag)
      rw [hfil, hae]
      exact List.mem_cons_self _ _
    exact jsOrNull_status (mem_getLogs.mp hmem).2.1

/-- C7 counterexample: the primary full-history query fails and the
secondary limit-1 query would succeed with a status, yet `getIpadStatus`
returns `none` without consulting it — the secondary strategy is not tried
when the primary fails. -/
theorem fallback_chain_counterexample :
    storePrimaryDown.primaryLogsQueryFails = true ∧
    ipadStatusFallback1 storePrimaryDown "T" = .ok (some (some "ส่งเข้า")) ∧
    getIpadStatus storePrimaryDown 5 "T" = none := by
  refine ⟨rfl, rfl, by decide⟩

/-- C7 amended: the fallback chain is structurally present but dead code:
`getLogs` swallows the primary query failure and returns the empty list, so
a failing primary query makes `getIpadStatus` return the conservative
default `none` directly, never trying the secondary query or the
localStorage fallback. -/
theorem fallback_chain_amended (st : Store) (now : Nat) (tag : String)
    (h : st.primaryLogsQueryFails = true) :
    getIpadStatus st now tag = none ∧
    getIpadStatusPrimary st now tag = .ok none := by
  have hlogs : getLogs st now = [] := by simp [getLogs, h]
  constructor
  · rw [getIpadStatus_eq, hlogs]
    rfl
  · unfold getIpadStatusPrimary
    rw [hlogs]
    rfl

/-! ### Lemmas on trimming, deduplication and the locale sort -/

theorem dropTrailingWs_cons_neg {c : Char} {cs : List Char}
    (h : ¬(dropTrailingWs cs = [] ∧ c.isWhitespace)) :
    dropTrailingWs (c :: cs) = c :: dropTrailingWs cs := by
  rw [dropTrailingWs, if_neg h]

theorem dropTrailingWs_idem (l : List Char) :
    dropTrailingWs (dropTrailingWs l) = dropTrailingWs l := by
  induction l with
  | nil => rfl
  | cons c cs ih =>
    by_cases h : dropTrailingWs cs = [] ∧ c.isWhitespace
    · rw [dropTrailingWs, if_pos h]
      rfl
    · rw [dropTrailingWs_cons_neg h, dropTrailingWs_cons_neg (by rw [ih]; exact h), ih]

/-- `dropTrailingWs` of a non-empty list is empty or keeps the head. -/
theorem dropTrailingWs_cons (c : Char) (cs : List Char) :
    dropTrailingWs (c :: cs) = [] ∨ dropTrailingWs (c :: cs) = c :: dropTrailingWs cs := by
  by_cases h : dropTrailingWs cs = [] ∧ c.isWhitespace
  · left; rw [dropTrailingWs, if_pos h]
  · right; exact dropTrailingWs_cons_neg h

/-- After dropping leading whitespace the result is empty or starts with a
non-whitespace character. -/
theorem head_dropWhile_ws (l : List Char) :
    l.dropWhile Char.isWhitespace = [] ∨
    ∃ c cs, l.dropWhile Char.isWhitespace = c :: cs ∧ c.isWhitespace = false := by
  induction l with
  | nil => left; rfl
  | cons c cs ih =>
    rw [List.dropWhile_cons]
    by_cases h : c.isWhitespace = true
    · rw [if_pos h]; exact ih
    · rw [if_neg h]
      right
      exact ⟨c, cs, rfl, by simpa using h⟩

theorem trimChars_idem (l : List Char) : trimChars (trimChars l) = trimChars l := by
  unfold trimChars
  have hdw : (dropTrailingWs (l.dropWhile Char.isWhitespace)).dropWhile Char.isWhitespace =
      dropTrailingWs (l.dropWhile Char.isWhitespace) := by
    rcases head_dropWhile_ws l with h | ⟨c, cs, hc, hw⟩
    · rw [h]; rfl
    · rw [hc]
      rcases dropTrailingWs_cons c cs with h2 | h2
      · rw [h2]; rfl
      · rw [h2, List.dropWhile_cons, if_neg (by simp [hw])]
  rw [hdw, dropTrailingWs_idem]

/-- JavaScript `trim` is idempotent. -/
theorem jsTrim_idem (s : String) : jsTrim (jsTrim s) = jsTrim s :=
  congrArg String.mk (trimChars_idem s.data)

theorem mem_jsSetDedupAux {x : String} {l : List String} :
    ∀ {seen : List String}, x ∈ jsSetDedupAux seen l ↔ x ∈ l ∧ x ∉ seen := by
  induction l with
  | nil => intro seen; simp [jsSetDedupAux]
  | cons y ys ih =>
    intro seen
    rw [jsSetDedupAux]
    by_cases h : seen.contains y
    · rw [if_pos h]
      have hy : y ∈ seen := List.elem_iff.mp h
      rw [ih]
      constructor
      · rintro ⟨hx, hns⟩
        exact ⟨List.mem_cons_of_mem _ hx, hns⟩
      · rintro ⟨hx, hns⟩
        rcases List.mem_cons.mp hx with he | he
        · exact absurd (he ▸ hy) hns
        · exact ⟨he, hns⟩
    · rw [if_neg h]
      have hy : y ∉ seen := fun hc => h (List.elem_iff.mpr hc)
      constructor
      · intro hx
        rcases List.mem_cons.mp hx with he | he
        · exact ⟨he ▸ List.mem_cons_self y ys, he ▸ hy⟩
        · obtain ⟨h1, h2⟩ := ih.mp he
          exact ⟨List.mem_cons_of_mem _ h1, fun hc => h2 (List.mem_cons_of_mem _ hc)⟩
      · rintro ⟨hx, hns⟩
        rcases List.mem_cons.mp hx with he | he
        · exact he ▸ List.mem_cons_self _ _
        · by_cases hxy : x = y
          · exact hxy ▸ List.mem_cons_self _ _
          · exact List.mem_cons_of_mem _
              (ih.mpr ⟨he, fun hc => (List.mem_cons.mp hc).elim hxy hns⟩)

theorem mem_jsSetDedup {x : String} {l : List String} :
    x ∈ jsSetDedup l ↔ x ∈ l := by
  rw [jsSetDedup, mem_jsSetDedupAux]
  simp

theorem nodup_jsSetDedupAux (l : List String) :
    ∀ seen : List String, (jsSetDedupAux seen l).Nodup := by
  induction l with
  | nil => intro seen; exact List.nodup_nil
  | cons y ys ih =>
    intro seen
    rw [jsSetDedupAux]
    by_cases h : seen.contains y
    · rw [if_pos h]; exact ih seen
    · rw [if_neg h]
      refine List.nodup_cons.mpr ⟨fun hy => ?_, ih _⟩
      exact (mem_jsSetDedupAux.mp hy).2 (List.mem_cons_self _ _)

theorem nodup_jsSetDedup (l : List String) : (jsSetDedup l).Nodup :=
  nodup_jsSetDedupAux l []

theorem jsInsert_perm {le : α → α → Bool} (x : α) (l : List α) :
    List.Perm (jsInsert le x l) (x :: l) := by
  induction l with
  | nil => exact List.Perm.refl _
  | cons y ys ih =>
    rw [jsInsert]
    by_cases h : le x y = true
    · rw [if_pos h]
    · rw [if_neg h]
      exact (ih.cons y).trans (List.Perm.swap x y ys)

theorem jsSortLe_perm {le : α → α → Bool} (l : List α) : List.Perm (jsSortLe le l) l := by
  induction l with
  | nil => exact List.Perm.refl _
  | cons y ys ih =>
    rw [jsSortLe]
    exact (jsInsert_perm y (jsSortLe le ys)).trans (ih.cons y)

theorem pairwise_jsInsert {le : α → α → Bool}
    (htot : ∀ a b, le a b || le b a)
    (htrans : ∀ a b c, le a b = true → le b c = true → le a c = true)
    (x : α) {l : List α} (h : l.Pairwise fun a b => le a b = true) :
    (jsInsert le x l).Pairwise fun a b => le a b = true := by
  induction l with
  | nil => simp [jsInsert]
  | cons y ys ih =>
    obtain ⟨hy, hys⟩ := List.pairwise_cons.mp h
    rw [jsInsert]
    by_cases hxy : le x y = true
    · rw [if_pos hxy]
      refine List.pairwise_cons.mpr ⟨fun b hb => ?_, h⟩
      rcases List.mem_cons.mp hb with he | he
      · exact he ▸ hxy
      · exact htrans x y b hxy (hy b he)
    · rw [if_neg hxy]
      have hyx : le y x = true := by
        rcases Bool.or_eq_true_iff.mp (htot x y) with h1 | h1
        · exact absurd h1 hxy
        · exact h1
      refine List.pairwise_cons.mpr ⟨fun b hb => ?_, ih hys⟩
      rcases mem_jsInsert.mp hb with he | he
      · exact he ▸ hyx
      · exact hy b he

theorem pairwise_jsSortLe {le : α → α → Bool}
    (htot : ∀ a b, le a b || le b a)
    (htrans : ∀ a b c, le a b = true → le b c = true → le a c = true)
    (l : List α) : (jsSortLe le l).Pairwise fun a b => le a b = true := by
  induction l with
  | nil => simp [jsSortLe]
  | cons y ys ih =>
    rw [jsSortLe]
    exact pairwise_jsInsert htot htrans y ih

theorem tagsInv_dedup_trimmed (l : List String) :
    TagsInv (jsSetDedup ((l.map jsTrim).filter fun t => t ≠ "")) := by
  constructor
  · intro t ht
    have h1 := List.mem_filter.mp (mem_jsSetDedup.mp ht)
    obtain ⟨v, _, hveq⟩ := List.mem_map.mp h1.1
    exact ⟨hveq ▸ jsTrim_idem v, by simpa using h1.2⟩
  · exact nodup_jsSetDedup _

theorem tagsInv_dedup_append {l1 l2 : List String}
    (h1 : ∀ t ∈ l1, jsTrim t = t ∧ t ≠ "") (h2 : ∀ t ∈ l2, jsTrim t = t ∧ t ≠ "") :
    TagsInv (jsSetDedup (l1 ++ l2)) := by
  constructor
  · intro t ht
    rcases List.mem_append.mp (mem_jsSetDedup.mp ht) with h | h
    · exact h1 t h
    · exact h2 t h
  · exact nodup_jsSetDedup _

theorem registryInv_replace {st : Store} {id : String} {doc : IpadDoc}
    (hst : RegistryInv st) (hdoc : TagsInv doc.tags) :
    RegistryInv (replaceIpadDoc st id doc) := by
  intro d hd
  obtain ⟨d0, hd0, hmap⟩ := List.mem_map.mp hd
  by_cases h : (d0.id == id) = true
  · rw [if_pos h] at hmap
    exact hmap ▸ hdoc
  · rw [if_neg h] at hmap
    exact hmap ▸ hst d0 hd0

theorem registryInv_set {st : Store} {id dept : String} {tags : List String}
    (hst : RegistryInv st) (htags : TagsInv tags) :
    RegistryInv (setIpadDoc st id dept tags) := by
  unfold setIpadDoc
  by_cases h : st.ipad.any (fun d => d.id == id) = true
  · rw [if_pos h]
    exact registryInv_replace hst htags
  · rw [if_neg h]
    intro d hd
    rcases List.mem_append.mp hd with hmem | hmem
    · exact hst d hmem
    · have : d = ⟨id, some dept, tags⟩ := by simpa using hmem
      exact this ▸ htags

theorem registryInv_delete {st : Store} {id : String} (hst : RegistryInv st) :
    RegistryInv (deleteIpadDoc st id) :=
  fun d hd => hst d (List.mem_of_mem_filter hd)

theorem tagsInv_of_getIpadDocById {st : Store} {id : String} {data : IpadDoc}
    (hst : RegistryInv st) (h : getIpadDocById st id = some data) :
    TagsInv data.tags :=
  hst data (List.mem_of_find?_eq_some h)

/-- C9: every registry operation — department upsert, adding a tag,
removing a tag, renaming a department — preserves the tag-set invariant
(trimmed, non-empty, duplicate-free), and `getTagsByDepartment` returns a
duplicate-free list, sorted by the locale comparison, of exactly the
trimmed non-empty tags of the department's documents. -/
theorem registry_invariant (st : Store) (department tag : String)
    (tags : List String) (oldName newName : String)
    (hinv : RegistryInv st) :
    (∀ st', upsertIpadDepartment st department tags = .ok st' → RegistryInv st') ∧
    RegistryInv (addTagToDepartment st department tag) ∧
    RegistryInv (removeTagFromDepartment st department tag) ∧
    (∀ st', renameIpadDepartment st oldName newName = .ok st' → RegistryInv st') ∧
    (getTagsByDepartment st department).Nodup ∧
    (getTagsByDepartment st department).Pairwise (fun a b => thLe a b = true) ∧
    (∀ u, u ∈ getTagsByDepartment st department ↔
      u ≠ "" ∧ ∃ d ∈ st.ipad, d.department = some department ∧
        ∃ v ∈ d.tags, jsTrim v = u) := by
  refine ⟨?_, ?_, ?_, ?_, ?_, ?_, ?_⟩
  · -- upsert
    intro st' hok
    rw [upsertIpadDepartment] at hok
    by_cases hdep : jsTrim department = ""
    · rw [if_pos hdep] at hok; cases hok
    rw [if_neg hdep] at hok
    cases hdoc : getIpadDocById st (deptIdFor department) with
    | some data =>
      simp only [hdoc, Except.ok.injEq] at hok
      subst hok
      apply registryInv_replace hinv
      exact tagsInv_dedup_append (tagsInv_of_getIpadDocById hinv hdoc).1
        (tagsInv_dedup_trimmed tags).1
    | none =>
      simp only [hdoc, Except.ok.injEq] at hok
      subst hok
      exact registryInv_set hinv (tagsInv_dedup_trimmed tags)
  · -- addTagToDepartment
    rw [addTagToDepartment]
    by_cases hblank : jsTrim tag = ""
    · rw [if_pos hblank]; exact hinv
    rw [if_neg hblank]
    cases hdoc : getIpadDocById st (deptIdFor department) with
    | some data =>
      by_cases hcont : data.tags.contains (jsTrim tag) = true
      · simp only [hdoc, hcont, if_true]
        exact hinv
      · simp only [hdoc, hcont, if_false]
        apply registryInv_replace hinv
        obtain ⟨hfields, hnd⟩ := tagsInv_of_getIpadDocById hinv hdoc
        constructor
        · intro t ht
          rcases List.mem_append.mp ht with h | h
          · exact hfields t h
          · have : t = jsTrim tag := by simpa using h
            exact ⟨this ▸ jsTrim_idem tag, this ▸ hblank⟩
        · have hnotmem : jsTrim tag ∉ data.tags := fun hmem =>
            hcont (List.elem_iff.mpr hmem)
          simp [List.nodup_append, hnd, hnotmem]
    | none =>
      simp only [hdoc]
      apply registryInv_set hinv
      refine ⟨fun t ht => ?_, List.nodup_singleton _⟩
      have : t = jsTrim tag := by simpa using ht
      exact ⟨this ▸ jsTrim_idem tag, this ▸ hblank⟩
  · -- removeTagFromDepartment
    rw [removeTagFromDepartment]
    cases hdoc : getIpadDocById st (deptIdFor department) with
    | some data =>
      simp only [hdoc]
      apply registryInv_replace hinv
      obtain ⟨hfields, hnd⟩ := tagsInv_of_getIpadDocById hinv hdoc
      exact ⟨fun t ht => hfields t (List.mem_of_mem_filter ht), hnd.filter _⟩
    | none =>
      simp only [hdoc]
      exact hinv
  · -- renameIpadDepartment
    intro st' hok
    rw [renameIpadDepartment] at hok
    by_cases hnames : oldName = "" ∨ newName = ""
    · rw [if_pos hnames] at hok; cases hok
    rw [if_neg hnames] at hok
    by_cases hid : deptIdFor oldName = deptIdFor newName
    · rw [if_pos hid] at hok
      cases hdoc : getIpadDocById st (deptIdFor oldName) with
      | none =>
        simp only [hdoc] at hok
        cases hok
      | some data =>
        simp only [hdoc, Except.ok.injEq] at hok
        subst hok
        exact registryInv_replace hinv
          (show TagsInv data.tags from tagsInv_of_getIpadDocById hinv hdoc)
    · rw [if_neg hid] at hok
      simp only [Except.ok.injEq] at hok
      subst hok
      cases hnew : getIpadDocById st (deptIdFor newName) with
      | some nd =>
        cases hold : getIpadDocById st (deptIdFor oldName) with
        | some od =>
          simp only [hnew, hold]
          apply registryInv_delete
          exact registryInv_replace hinv (tagsInv_dedup_trimmed _)
        | none =>
          simp only [hnew, hold]
          exact registryInv_replace hinv (tagsInv_dedup_trimmed _)
      | none =>
        cases hold : getIpadDocById st (deptIdFor oldName) with
        | some od =>
          simp only [hnew, hold]
          apply registryInv_delete
          exact registryInv_set hinv (tagsInv_dedup_trimmed _)
        | none =>
          simp only [hnew, hold]
          exact registryInv_set hinv (tagsInv_dedup_trimmed _)
  · -- Nodup of getTagsByDepartment
    exact ((jsSortLe_perm _).nodup_iff).mpr (nodup_jsSetDedup _)
  · -- sortedness of getTagsByDepartment
    exact pairwise_jsSortLe
      (fun a b => by
        simp only [thLe, Bool.or_eq_true_iff, decide_eq_true_eq]
        exact le_total a b)
      (fun a b c h1 h2 => by
        simp only [thLe, decide_eq_true_eq] at h1 h2 ⊢
        exact le_trans h1 h2)
      _
  · -- membership characterization of getTagsByDepartment
    intro u
    show u ∈ jsSortLe thLe _ ↔ _
    rw [mem_jsSortLe, mem_jsSetDedup, List.mem_filter]
    constructor
    · rintro ⟨hmem, hne⟩
      obtain ⟨v, hv, hveq⟩ := List.mem_map.mp hmem
      obtain ⟨tl, htl, hvtl⟩ := List.mem_flatten.mp hv
      obtain ⟨d, hd, hdtl⟩ := List.mem_map.mp htl
      have hdf := List.mem_filter.mp hd
      refine ⟨by simpa using hne, d, hdf.1, eq_of_beq hdf.2, v, ?_, hveq⟩
      rw [hdtl]
      exact hvtl
    · rintro ⟨hne, d, hd, hdep, v, hv, hveq⟩
      refine ⟨?_, by simpa using hne⟩
      apply List.mem_map.mpr
      refine ⟨v, ?_, hveq⟩
      apply List.mem_flatten.mpr
      refine ⟨d.tags, ?_, hv⟩
      apply List.mem_map.mpr
      refine ⟨d, ?_, rfl⟩
      exact List.mem_filter.mpr ⟨hd, by simp [hdep]⟩

/-! ### Renaming a department (C8) -/

theorem getIpadDocById_mem {st : Store} {id : String} {nd : IpadDoc}
    (h : getIpadDocById st id = some nd) : nd ∈ st.ipad := by
  rw [getIpadDocById] at h
  exact List.mem_of_find?_eq_some h

theorem getIpadDocById_id {st : Store} {id : String} {nd : IpadDoc}
    (h : getIpadDocById st id = some nd) : (nd.id == id) = true := by
  rw [getIpadDocById] at h
  have := List.find?_some h
  simpa using this

theorem setIpadDoc_flags (st : Store) (id dept : String) (tags : List String) :
    (setIpadDoc st id dept tags).ipadTagQueryFails = st.ipadTagQueryFails := by
  rw [setIpadDoc]
  by_cases h : st.ipad.any (fun d => d.id == id) = true
  · rw [if_pos h]
    rfl
  · rw [if_neg h]

theorem find?_id_eq {l : List IpadDoc} {id : String} {doc : IpadDoc}
    (hmem : doc ∈ l) (hid : doc.id = id)
    (huniq : ∀ d ∈ l, d.id = id → d = doc) :
    l.find? (fun d => d.id == id) = some doc := by
  induction l with
  | nil => cases hmem
  | cons d ds ih =>
    by_cases h : d.id = id
    · have hde : d = doc := huniq d (List.mem_cons_self _ _) h
      rw [List.find?_cons_of_pos _ (by simp [h]), hde]
    · rw [List.find?_cons_of_neg _ (by simp [h])]
      refine ih ?_ fun d' hd' h' => huniq d' (List.mem_cons_of_mem _ hd') h'
      rcases List.mem_cons.mp hmem with he | he
      · exact absurd (he ▸ hid) h
      · exact he

theorem mem_delete {st : Store} {id : String} {d : IpadDoc} :
    d ∈ (deleteIpadDoc st id).ipad ↔ d ∈ st.ipad ∧ (d.id == id) = false := by
  simp [deleteIpadDoc, List.mem_filter]

theorem replace_mem_cases {st : Store} {id : String} {doc d : IpadDoc}
    (hd : d ∈ (replaceIpadDoc st id doc).ipad) :
    d = doc ∨ (d ∈ st.ipad ∧ (d.id == id) = false) := by
  obtain ⟨d0, hd0, heq⟩ := List.mem_map.mp hd
  by_cases h : (d0.id == id) = true
  · rw [if_pos h] at heq
    exact Or.inl heq.symm
  · rw [if_neg h] at heq
    subst heq
    exact Or.inr ⟨hd0, by simpa using h⟩

theorem replace_mem_self {st : Store} {id : String} {doc nd : IpadDoc}
    (hnd : nd ∈ st.ipad) (hid : (nd.id == id) = true) :
    doc ∈ (replaceIpadDoc st id doc).ipad :=
  List.mem_map.mpr ⟨nd, hnd, by rw [if_pos hid]⟩

/-- Shared shape of the registry after the merge-and-delete rename: the
document written at the target key, uniqueness, and removal of the source
key. -/
theorem rename_core (newName : String) (merged : List String)
    {st st1 : Store} {oldId newId : String}
    (hne : oldId ≠ newId)
    (hmem1 : (⟨newId, some newName, merged⟩ : IpadDoc) ∈ st1.ipad)
    (hcases : ∀ d ∈ st1.ipad, d = ⟨newId, some newName, merged⟩ ∨
      (d ∈ st.ipad ∧ (d.id == newId) = false)) :
    getIpadDocById (deleteIpadDoc st1 oldId) newId =
      some ⟨newId, some newName, merged⟩ ∧
    (∀ d ∈ (deleteIpadDoc st1 oldId).ipad, d.id ≠ oldId) ∧
    (∀ d ∈ (deleteIpadDoc st1 oldId).ipad,
      d = ⟨newId, some newName, merged⟩ ∨ (d ∈ st.ipad ∧ (d.id == newId) = false)) := by
  refine ⟨?_, fun d hd => by simpa using (mem_delete.mp hd).2,
    fun d hd => hcases d (mem_delete.mp hd).1⟩
  apply find?_id_eq
  · exact mem_delete.mpr ⟨hmem1, by simpa using Ne.symm hne⟩
  · rfl
  · intro d hd hdid
    rcases hcases d (mem_delete.mp hd).1 with h | ⟨-, hfalse⟩
    · exact h
    · rw [hdid] at hfalse
      simp at hfalse

/-- C8: renaming with a changed normalized key merges the two tag sets into
the target key (trimmed, non-empty, deduplicated union) and removes the
source key, so a registered tag becomes valid under the new display name
and invalid under the old one; with an unchanged normalized key only the
display name is updated and the tag list is untouched. -/
theorem renameIpadDepartment_spec :
    (∀ (st st' : Store) (oldName newName tag : String) (oldDoc : IpadDoc),
      renameIpadDepartment st oldName newName = .ok st' →
      deptIdFor oldName ≠ deptIdFor newName →
      getIpadDocById st (deptIdFor oldName) = some oldDoc →
      tag ∈ oldDoc.tags → jsTrim tag = tag → tag ≠ "" →
      st.ipadTagQueryFails = false →
      (∀ d ∈ st.ipad, d.department = some oldName → d.id = deptIdFor oldName) →
      validateIpadTag st' tag newName = true ∧
      validateIpadTag st' tag oldName = false ∧
      (∀ d ∈ st'.ipad, d.id ≠ deptIdFor oldName) ∧
      (∃ newDoc, getIpadDocById st' (deptIdFor newName) = some newDoc ∧
        newDoc.department = some newName ∧ newDoc.tags.Nodup ∧
        ∀ u, u ∈ newDoc.tags ↔ u ≠ "" ∧
          ∃ v, jsTrim v = u ∧
            (v ∈ ((getIpadDocById st (deptIdFor newName)).map IpadDoc.tags).getD [] ∨
             v ∈ oldDoc.tags))) ∧
    (∀ (st : Store) (oldName newName : String) (data : IpadDoc),
      deptIdFor oldName = deptIdFor newName →
      ¬(oldName = "" ∨ newName = "") →
      getIpadDocById st (deptIdFor oldName) = some data →
      renameIpadDepartment st oldName newName =
        .ok (replaceIpadDoc st (deptIdFor oldName)
          { id := data.id, department := some newName, tags := data.tags })) := by
  constructor
  · intro st st' oldName newName tag oldDoc hok hids holdDoc htag htrim hne hq hstray
    rw [renameIpadDepartment] at hok
    by_cases hnames : oldName = "" ∨ newName = ""
    · rw [if_pos hnames] at hok
      cases hok
    rw [if_neg hnames, if_neg hids] at hok
    have hnn : oldName ≠ newName := fun h => hids (h ▸ rfl)
    cases hnew : getIpadDocById st (deptIdFor newName) with
    | some nd =>
      simp only [holdDoc, hnew, Except.ok.injEq, Option.map_some', Option.map_none',
        Option.getD_some, Option.getD_none] at hok
      subst hok
      have hndmem : nd ∈ st.ipad := getIpadDocById_mem hnew
      have hndid : (nd.id == deptIdFor newName) = true := getIpadDocById_id hnew
      have hcore := rename_core newName
        (jsSetDedup (((nd.tags ++ oldDoc.tags).map jsTrim).filter fun t => t ≠ ""))
        hids
        (replace_mem_self hndmem hndid)
        (fun d hd => replace_mem_cases hd)
      obtain ⟨hfind, hnold, hcase⟩ := hcore
      have hmerged : tag ∈ jsSetDedup
          (((nd.tags ++ oldDoc.tags).map jsTrim).filter fun t => t ≠ "") := by
        rw [mem_jsSetDedup]
        exact List.mem_filter.mpr
          ⟨List.mem_map.mpr ⟨tag, List.mem_append.mpr (Or.inr htag), htrim⟩,
           by simpa using hne⟩
      refine ⟨?_, ?_, hnold, ⟨_, hfind, rfl, nodup_jsSetDedup _, fun u => ?_⟩⟩
      · rw [validateIpadTag, if_neg (by simpa using hq)]
        rw [List.any_eq_true]
        refine ⟨_, mem_delete.mpr
          ⟨replace_mem_self hndmem hndid, by simpa using Ne.symm hids⟩, ?_⟩
        rw [Bool.and_eq_true]
        exact ⟨List.elem_iff.mpr hmerged, by simp⟩
      · rw [validateIpadTag, if_neg (by simpa using hq)]
        rw [List.any_eq_false]
        intro d hd hcontra
        rw [Bool.and_eq_true] at hcontra
        have hdep := eq_of_beq hcontra.2
        rcases hcase d hd with h | ⟨hmem0, -⟩
        · rw [h] at hdep
          exact Ne.symm hnn (by simpa using hdep)
        · have := hstray d hmem0 hdep
          exact hnold d hd this
      · show u ∈ jsSetDedup _ ↔ _
        rw [mem_jsSetDedup, List.mem_filter]
        simp only [Option.map_some', Option.map_none', Option.getD_some, Option.getD_none]
        constructor
        · rintro ⟨hm, hu⟩
          obtain ⟨v, hv, hveq⟩ := List.mem_map.mp hm
          exact ⟨by simpa using hu, v, hveq, by simpa using List.mem_append.mp hv⟩
        · rintro ⟨hu, v, hveq, hv⟩
          refine ⟨List.mem_map.mpr ⟨v, List.mem_append.mpr (by simpa using hv), hveq⟩,
            by simpa using hu⟩
    | none =>
      simp only [holdDoc, hnew, Except.ok.injEq, Option.map_some', Option.map_none',
        Option.getD_some, Option.getD_none] at hok
      subst hok
      have hnone : ∀ d ∈ st.ipad, ¬((d.id == deptIdFor newName) = true) :=
        List.find?_eq_none.mp hnew
      have hanyf : (st.ipad.any fun d => d.id == deptIdFor newName) = false := by
        rw [List.any_eq_false]
        exact hnone
      have hset : (setIpadDoc st (deptIdFor newName) newName
          (jsSetDedup ((([] ++ oldDoc.tags).map jsTrim).filter fun t => t ≠ ""))).ipad =
          st.ipad ++ [⟨deptIdFor newName, some newName,
            jsSetDedup ((([] ++ oldDoc.tags).map jsTrim).filter fun t => t ≠ "")⟩] := by
        rw [setIpadDoc, if_neg (by simp [hanyf])]
      have hcore := rename_core newName
        (jsSetDedup ((([] ++ oldDoc.tags).map jsTrim).filter fun t => t ≠ ""))
        hids
        (by rw [hset]; exact List.mem_append.mpr (Or.inr (List.mem_cons_self _ _)))
        (fun d hd => by
          rw [hset] at hd
          rcases List.mem_append.mp hd with h | h
          · exact Or.inr ⟨h, by simpa using fun hc => hnone d h (by simp [hc])⟩
          · exact Or.inl (by simpa using h))
      obtain ⟨hfind, hnold, hcase⟩ := hcore
      have hmerged : tag ∈ jsSetDedup
          ((([] ++ oldDoc.tags).map jsTrim).filter fun t => t ≠ "") := by
        rw [mem_jsSetDedup]
        exact List.mem_filter.mpr
          ⟨List.mem_map.mpr ⟨tag, List.mem_append.mpr (Or.inr htag), htrim⟩,
           by simpa using hne⟩
      have hflag : (deleteIpadDoc (setIpadDoc st (deptIdFor newName) newName
          (jsSetDedup ((([] ++ oldDoc.tags).map jsTrim).filter fun t => t ≠ "")))
          (deptIdFor oldName)).ipadTagQueryFails = false :=
        (setIpadDoc_flags st (deptIdFor newName) newName _).trans hq
      refine ⟨?_, ?_, hnold, ⟨_, hfind, rfl, nodup_jsSetDedup _, fun u => ?_⟩⟩
      · rw [validateIpadTag, if_neg (by simpa using hflag)]
        rw [List.any_eq_true]
        refine ⟨_, mem_delete.mpr
          ⟨by rw [hset]; exact List.mem_append.mpr (Or.inr (List.mem_cons_self _ _)),
           by simpa using Ne.symm hids⟩, ?_⟩
        rw [Bool.and_eq_true]
        exact ⟨List.elem_iff.mpr hmerged, by simp⟩
      · rw [validateIpadTag, if_neg (by simpa using hflag)]
        rw [List.any_eq_false]
        intro d hd hcontra
        rw [Bool.and_eq_true] at hcontra
        have hdep := eq_of_beq hcontra.2
        rcases hcase d hd with h | ⟨hmem0, -⟩
        · rw [h] at hdep
          exact Ne.symm hnn (by simpa using hdep)
        · have := hstray d hmem0 hdep
          exact hnold d hd this
      · show u ∈ jsSetDedup _ ↔ _
        rw [mem_jsSetDedup, List.mem_filter]
        simp only [Option.map_some', Option.map_none', Option.getD_some, Option.getD_none]
        constructor
        · rintro ⟨hm, hu⟩
          obtain ⟨v, hv, hveq⟩ := List.mem_map.mp hm
          exact ⟨by simpa using hu, v, hveq, by simpa using List.mem_append.mp hv⟩
        · rintro ⟨hu, v, hveq, hv⟩
          refine ⟨List.mem_map.mpr ⟨v, List.mem_append.mpr (by simpa using hv), hveq⟩,
            by simpa using hu⟩
  · intro st oldName newName data hid hnames hdoc
    rw [renameIpadDepartment, if_neg hnames, if_pos hid]
    simp only [hdoc]

/-! ### Witnesses: the theorems above applied at concrete inputs -/

/-- Witness for the C1 state machine at a store holding one checked-in
event for the tag, so that the duplicate-rejection branch is exercised
with a non-vacuous antecedent. -/
theorem canAddLog_state_machine_witness :
    (((canAddLog sampleHistory 5 "ER-01" Status.checkedIn).canAdd = true ↔
      (getIpadStatus sampleHistory 5 "ER-01" = none ∨
        getIpadStatus sampleHistory 5 "ER-01" ≠ some Status.checkedIn.str)) ∧
    (getIpadStatus sampleHistory 5 "ER-01" = some Status.checkedIn.str →
      canAddLog sampleHistory 5 "ER-01" Status.checkedIn =
        { canAdd := false, message := dupStatusMsg Status.checkedIn }) ∧
    (∀ (emp dept : String) (run : List (Nat × String × Status)),
      sampleHistory.primaryLogsQueryFails = false →
      (∀ r ∈ sampleHistory.logs, r.ipadTag ≠ some "ER-01") →
      run.Pairwise (fun a b => a.1 < b.1) →
      acceptedRun "ER-01" emp dept sampleHistory run = true →
      (run.map fun x => x.2.2).Chain' (· ≠ ·))) ∧
    getIpadStatus sampleHistory 5 "ER-01" = some Status.checkedIn.str ∧
    canAddLog sampleHistory 5 "ER-01" Status.checkedIn =
      { canAdd := false, message := dupStatusMsg Status.checkedIn } ∧
    (canAddLog sampleHistory 5 "ER-01" Status.checkedOut).canAdd = true :=
  ⟨canAddLog_state_machine sampleHistory 5 "ER-01" Status.checkedIn,
   by decide, by decide, by decide⟩

/-- Witness for the C2 resolution theorem at a concrete store and tag. -/
theorem getIpadStatus_resolution_witness :
    ((∀ r ∈ sampleRegistry.logs, r.ipadTag ≠ some "ER-01") →
      getIpadStatus sampleRegistry 5 "ER-01" = none) ∧
    (∀ e ∈ (getLogs sampleRegistry 5).filter (fun l => l.ipadTag == some "ER-01"),
      ∀ te : Nat, dateGetTime e.timestamp = some te →
      (∀ e' ∈ (getLogs sampleRegistry 5).filter (fun l => l.ipadTag == some "ER-01"),
        e' ≠ e → ∃ t', dateGetTime e'.timestamp = some t' ∧ t' < te) →
      getIpadStatus sampleRegistry 5 "ER-01" = e.status) :=
  getIpadStatus_resolution sampleRegistry 5 "ER-01"

/-- Witness for the C6 amended theorem: with the only event of tag `T`
carrying an unparsable timestamp, resolution returns that event's
status. -/
theorem malformed_ts_amended_witness :
    getIpadStatus storeMalformedTs 5 "T" = some "ส่งเข้า" :=
  malformed_ts_amended storeMalformedTs 5 "T"
    { id := "b1", employeeId := "e1", ipadTag := some "T", department := some "ER",
      status := some "ส่งเข้า", timestamp := "garbage",
      date := localeDateTH "garbage", time := localeTimeTH "garbage" }
    (by decide) (by decide)

/-- Witness for the C7 amended theorem at the store whose primary query
fails. -/
theorem fallback_chain_amended_witness :
    getIpadStatus storePrimaryDown 7 "T" = none ∧
    getIpadStatusPrimary storePrimaryDown 7 "T" = .ok none :=
  fallback_chain_amended storePrimaryDown 7 "T" rfl

/-- Witness for the C9 registry invariant at a concrete registry and
concrete operations. -/
theorem registry_invariant_witness :
    (∀ st', upsertIpadDepartment sampleRegistry "ER" ["x1"] = .ok st' →
      RegistryInv st') ∧
    RegistryInv (addTagToDepartment sampleRegistry "ER" " ER-03 ") ∧
    RegistryInv (removeTagFromDepartment sampleRegistry "ER" " ER-03 ") ∧
    (∀ st', renameIpadDepartment sampleRegistry "ER" "Emergency" = .ok st' →
      RegistryInv st') ∧
    (getTagsByDepartment sampleRegistry "ER").Nodup ∧
    (getTagsByDepartment sampleRegistry "ER").Pairwise (fun a b => thLe a b = true) ∧
    (∀ u, u ∈ getTagsByDepartment sampleRegistry "ER" ↔
      u ≠ "" ∧ ∃ d ∈ sampleRegistry.ipad, d.department = some "ER" ∧
        ∃ v ∈ d.tags, jsTrim v = u) :=
  registry_invariant sampleRegistry "ER" " ER-03 " ["x1"] "ER" "Emergency"
    (by unfold RegistryInv TagsInv; decide)

end IpadTrack
